import Mathlib

/-!
Verification of the text-to-speech core of the daily-podcast repository
(`src/tts.js`): the speaker-tag parser, the byte-bounded chunker, the
per-chunk retry driver, and the audio-assembly flow of `convertToAudio`.

Strings are embedded as `List Char` (JavaScript strings restricted to
Unicode scalar values); UTF-8 byte length is the sum of each character's
encoded width, matching `Buffer.byteLength(s, 'utf8')`.
-/

namespace DailyPodcast

/-- Whitespace recognised by `String.prototype.trim` (the common members:
space, tab, LF, CR, vertical tab, form feed, NBSP, BOM). -/
def isWs (c : Char) : Bool :=
  c = ' ' || c = '\t' || c = '\n' || c = '\r' || c = '\x0b' || c = '\x0c' ||
  c = ' ' || c = '﻿'

/-- Sentence-terminal punctuation of the chunker's regex `[.!?]`. -/
def isTerm (c : Char) : Bool :=
  c = '.' || c = '!' || c = '?'

/-- UTF-8 encoded byte length, as computed by `Buffer.byteLength(s, 'utf8')`:
each character contributes its full encoded width (1 to 4 bytes). -/
def utf8Len (l : List Char) : Nat :=
  (l.map Char.utf8Size).sum

/-- Drop leading whitespace (left half of `String.prototype.trim`). -/
def trimL (l : List Char) : List Char :=
  l.dropWhile isWs

/-- Drop trailing whitespace (right half of `String.prototype.trim`). -/
def trimR (l : List Char) : List Char :=
  (l.reverse.dropWhile isWs).reverse

/-- Embedding of `String.prototype.trim`: drop leading and trailing whitespace. -/
def trim (l : List Char) : List Char :=
  trimR (trimL l)

/-- Erase every whitespace character (used to state what chunking preserves). -/
def removeWs (l : List Char) : List Char :=
  l.filter (fun c => !isWs c)

/-- One pass of the sentence-matching regex `[^.!?]+[.!?]+` while inside a
unit: `inTerm` records whether the matcher is already consuming the trailing
run of terminator characters, `acc` the characters of the unit so far.  A
unit ends when a non-terminator follows a terminator run; input that ends
before any terminator is seen is not a match and is dropped, exactly as
`String.prototype.match` drops it. -/
def goUnit (inTerm : Bool) (acc : List Char) : List Char → List (List Char)
  | [] => if inTerm then [acc] else []
  | c :: cs =>
    if inTerm then
      if isTerm c then goUnit true (acc ++ [c]) cs
      else acc :: goUnit false [c] cs
    else
      if isTerm c then goUnit true (acc ++ [c]) cs
      else goUnit false (acc ++ [c]) cs

/-- Scan for the first position where `[^.!?]+[.!?]+` can match: leading
terminator characters cannot start a match and are skipped. -/
def goStart : List Char → List (List Char)
  | [] => []
  | c :: cs => if isTerm c then goStart cs else goUnit false [c] cs

/-- All matches of `script.match(/[^.!?]+[.!?]+/g)`, in order; `[]` plays the
role of the `null` result when there is no match. -/
def splitSentences (s : List Char) : List (List Char) :=
  goStart s

/-- Embedding of `script.match(/[^.!?]+[.!?]+/g) || [script]`: the sentence units the
chunker works on; when nothing matches, the whole script is one unit. -/
def sentenceUnits (s : List Char) : List (List Char) :=
  if splitSentences s = [] then [s] else splitSentences s

/-- The accumulation loop of `chunkScript`: `cur` is `currentChunk`.  Adding
the next sentence to `cur` is tested against the byte ceiling; on overflow a
non-empty `cur` is emitted trimmed and the sentence starts the next chunk,
while with an empty `cur` the (oversized) sentence is emitted alone, trimmed.
At the end a non-trivially-whitespace `cur` is emitted trimmed. -/
def chunkLoop (maxBytes : Nat) (cur : List Char) : List (List Char) → List (List Char)
  | [] => if trim cur = [] then [] else [trim cur]
  | s :: rest =>
    if maxBytes < utf8Len (cur ++ s) then
      if cur = [] then trim s :: chunkLoop maxBytes [] rest
      else trim cur :: chunkLoop maxBytes s rest
    else chunkLoop maxBytes (cur ++ s) rest

/-- Embedding of `chunkScript(script, maxBytes)` from `src/tts.js` (the source defaults
`maxBytes` to 4500): split the script into sentence units and greedily pack
them into chunks whose UTF-8 byte length stays at or under the ceiling. -/
def chunkScript (script : List Char) (maxBytes : Nat) : List (List Char) :=
  chunkLoop maxBytes [] (sentenceUnits script)

/-- The two speakers recognised by the parser's regex `\[(HOST|COHOST)\]`. -/
inductive Speaker where
  | HOST : Speaker
  | COHOST : Speaker
deriving DecidableEq, Repr

/-- One parsed turn: a speaker together with its (trimmed) text. -/
structure Segment where
  speaker : Speaker
  text : List Char
deriving DecidableEq, Repr

/-- The characters of a speaker marker. -/
def tagChars : Speaker → List Char
  | Speaker.HOST => "[HOST]".toList
  | Speaker.COHOST => "[COHOST]".toList

/-- Recognise a speaker marker at the head of the input, returning the
speaker and the remaining characters. -/
def stripTag : List Char → Option (Speaker × List Char)
  | '[' :: 'H' :: 'O' :: 'S' :: 'T' :: ']' :: rest => some (Speaker.HOST, rest)
  | '[' :: 'C' :: 'O' :: 'H' :: 'O' :: 'S' :: 'T' :: ']' :: rest => some (Speaker.COHOST, rest)
  | _ => none

/-- The guard `if (text)` of the parser loop: it emits a segment
only when the trimmed span is non-empty. -/
def emitSeg (sp : Speaker) (acc : List Char) : List Segment :=
  if trim acc = [] then [] else [⟨sp, trim acc⟩]

/-- Scan the text that follows a recognised marker: accumulate characters for
the current speaker until the next marker or the end of the input, emitting
the trimmed span (when non-empty) at each boundary.  This mirrors the loop of
`parseScriptBySpeaker` over `script.split(/\[(HOST|COHOST)\]/)`. -/
def parseAux (sp : Speaker) (acc : List Char) : List Char → List Segment
  | '[' :: 'H' :: 'O' :: 'S' :: 'T' :: ']' :: rest =>
    emitSeg sp acc ++ parseAux Speaker.HOST [] rest
  | '[' :: 'C' :: 'O' :: 'H' :: 'O' :: 'S' :: 'T' :: ']' :: rest =>
    emitSeg sp acc ++ parseAux Speaker.COHOST [] rest
  | c :: rest => parseAux sp (acc ++ [c]) rest
  | [] => emitSeg sp acc

/-- Scan for the first speaker marker; everything before it (the split's
`parts[0]`, whose index the loop starts past) is discarded. -/
def parsePre : List Char → List Segment
  | '[' :: 'H' :: 'O' :: 'S' :: 'T' :: ']' :: rest => parseAux Speaker.HOST [] rest
  | '[' :: 'C' :: 'O' :: 'H' :: 'O' :: 'S' :: 'T' :: ']' :: rest => parseAux Speaker.COHOST [] rest
  | _ :: rest => parsePre rest
  | [] => []

/-- Embedding of `parseScriptBySpeaker(script)` from `src/tts.js`: split on the speaker
markers and collect the non-empty trimmed spans with their speakers. -/
def parseScriptBySpeaker (script : List Char) : List Segment :=
  parsePre script

/-- The attempt loop of `synthesizeChunkWithRetry`, with the synthesis call
abstracted as `stub attempt`.  `fuel` counts the retries still allowed, so a
call with `fuel = maxRetries` performs attempts `attempt, …, attempt+fuel`;
every caught error is retried while fuel remains (the JS guard
`attempt <= maxRetries`), and the final attempt's outcome — success or the
last error — propagates. -/
def retryAux (stub : Nat → Except ε α) (attempt : Nat) : Nat → Except ε α
  | 0 => stub attempt
  | fuel + 1 =>
    match stub attempt with
    | Except.ok a => Except.ok a
    | Except.error _ => retryAux stub (attempt + 1) fuel

/-- Embedding of `synthesizeChunkWithRetry` from `src/tts.js` (the source defaults
`maxRetries` to 2): attempts `1 … maxRetries + 1`, retrying after every
failure until the bound is reached. -/
def synthesizeChunkWithRetry (stub : Nat → Except ε α) (maxRetries : Nat) : Except ε α :=
  retryAux stub 1 maxRetries

/-- The selection `segmentBytes > 4500 ? chunkScript(text, 4500) : [text]` from
`convertToAudio`: a segment over the ceiling is chunked, one under it is a
single chunk. -/
def chunksForSegment (seg : Segment) : List (List Char) :=
  if 4500 < utf8Len seg.text then chunkScript seg.text 4500 else [seg.text]

/-- A temporary chunk file: its index (the file name `chunk-<idx>.mp3`) and
the speaker and text whose synthesized audio it holds. -/
abbrev ChunkFile := Nat × Speaker × List Char

/-- The inner loop of `convertToAudio` over one segment's chunks: each chunk
is synthesized (a call recorded in `calls`) and written to the next numbered
temp file.  A failed synthesis propagates the error out of the loop with the
already-written temp files untouched. -/
def runChunks (ok : Nat → Bool) (sp : Speaker) (idx : Nat) (files : List ChunkFile)
    (calls : List (Speaker × List Char)) :
    List (List Char) → Except (List ChunkFile) (Nat × List ChunkFile × List (Speaker × List Char))
  | [] => Except.ok (idx, files, calls)
  | c :: rest =>
    if ok idx then
      runChunks ok sp (idx + 1) (files ++ [(idx, sp, c)]) (calls ++ [(sp, c)]) rest
    else Except.error files

/-- The outer loop of `convertToAudio` over the parsed segments. -/
def runSegments (ok : Nat → Bool) (idx : Nat) (files : List ChunkFile)
    (calls : List (Speaker × List Char)) :
    List Segment → Except (List ChunkFile) (Nat × List ChunkFile × List (Speaker × List Char))
  | [] => Except.ok (idx, files, calls)
  | seg :: rest =>
    match runChunks ok seg.speaker idx files calls (chunksForSegment seg) with
    | Except.ok (idx2, files2, calls2) => runSegments ok idx2 files2 calls2 rest
    | Except.error fs => Except.error fs

/-- The observable outcome of a successful `convertToAudio` run: the ordered
fragments concatenated into the artifact (each identified by its speaker and
chunk text), the reported character count, the synthesis calls in order, and
the temp chunk files still on disk afterwards. -/
structure ConvertResult where
  artifact : List (Speaker × List Char)
  characters : Nat
  calls : List (Speaker × List Char)
  tempLeft : List ChunkFile
deriving DecidableEq, Repr

/-- Embedding of `convertToAudio(script, out)` from `src/tts.js`, with the external
synthesis call abstracted by `ok` (whether the call for global chunk index
`i` succeeds).  `totalChars` is `Buffer.byteLength(script, 'utf8')`, computed
on the whole raw script.  On success a single chunk file is renamed to the
output and several are concatenated in list order and then unlinked; either
way no temp chunk file remains.  The catch block only logs and rethrows, so
on failure the propagated error leaves the already-written temp files in
place. -/
def convertToAudio (ok : Nat → Bool) (script : List Char) :
    Except (List ChunkFile) ConvertResult :=
  let totalChars := utf8Len script
  match runSegments ok 0 [] [] (parseScriptBySpeaker script) with
  | Except.error fs => Except.error fs
  | Except.ok (_, files, calls) =>
    if files.length = 1 then
      Except.ok ⟨files.map (fun f => (f.2.1, f.2.2)), totalChars, calls, []⟩
    else
      Except.ok ⟨files.map (fun f => (f.2.1, f.2.2)), totalChars, calls, []⟩

/-- The global chunk order the spec promises: turn order from the parser,
then within-turn chunk order from the chunker. -/
def globalChunkOrder (script : List Char) : List (Speaker × List Char) :=
  ((parseScriptBySpeaker script).map
    (fun seg => (chunksForSegment seg).map (fun c => (seg.speaker, c)))).flatten

/-- Join chunk texts with single spaces (the rejoining named by the
round-trip property). -/
def joinSpaces (ls : List (List Char)) : List Char :=
  List.intercalate [' '] ls

/-- A synthesis stub whose first attempt fails with a non-transient error
code (401, authentication) and whose later attempts succeed. -/
def authFailStub : Nat → Except Nat Nat :=
  fun n => if n = 1 then Except.error 401 else Except.ok 7

/-- A synthesis stub that fails transiently on the first two attempts and
succeeds from the third attempt on. -/
def failTwiceStub : Nat → Except Nat Nat :=
  fun n => if n ≤ 2 then Except.error n else Except.ok 9

theorem sum_le_of_sublist {l₁ l₂ : List Nat} (h : List.Sublist l₁ l₂) : l₁.sum ≤ l₂.sum := by
  induction h with
  | slnil => simp
  | cons a h ih => simp only [List.sum_cons]; omega
  | cons₂ a h ih => simp only [List.sum_cons]; omega

theorem utf8Len_append (a b : List Char) : utf8Len (a ++ b) = utf8Len a + utf8Len b := by
  simp [utf8Len, List.map_append, List.sum_append]

theorem utf8Len_le_of_sublist {l₁ l₂ : List Char} (h : List.Sublist l₁ l₂) :
    utf8Len l₁ ≤ utf8Len l₂ :=
  sum_le_of_sublist (h.map Char.utf8Size)

theorem trimL_sublist (l : List Char) : List.Sublist (trimL l) l :=
  List.dropWhile_sublist isWs

theorem trimR_sublist (l : List Char) : List.Sublist (trimR l) l := by
  have h := (List.dropWhile_sublist (l := l.reverse) isWs).reverse
  simpa [trimR] using h

theorem trim_sublist (l : List Char) : List.Sublist (trim l) l :=
  (trimR_sublist (trimL l)).trans (trimL_sublist l)

theorem utf8Len_trim_le (l : List Char) : utf8Len (trim l) ≤ utf8Len l :=
  utf8Len_le_of_sublist (trim_sublist l)

theorem removeWs_append (a b : List Char) : removeWs (a ++ b) = removeWs a ++ removeWs b :=
  List.filter_append a b

theorem removeWs_dropWhile (l : List Char) : removeWs (l.dropWhile isWs) = removeWs l := by
  induction l with
  | nil => rfl
  | cons c cs ih =>
    by_cases hc : isWs c
    · simpa [removeWs, List.dropWhile_cons, List.filter_cons, hc] using ih
    · simp [List.dropWhile_cons, hc]

theorem removeWs_trimL (l : List Char) : removeWs (trimL l) = removeWs l :=
  removeWs_dropWhile l

theorem removeWs_trimR (l : List Char) : removeWs (trimR l) = removeWs l := by
  calc removeWs (trimR l) = (removeWs (l.reverse.dropWhile isWs)).reverse := by
        simp [trimR, removeWs, List.filter_reverse]
    _ = (removeWs l.reverse).reverse := by rw [removeWs_dropWhile]
    _ = removeWs l := by simp [removeWs, List.filter_reverse]

theorem removeWs_trim (l : List Char) : removeWs (trim l) = removeWs l := by
  rw [trim, removeWs_trimR, removeWs_trimL]

theorem removeWs_eq_nil_of_trim {l : List Char} (h : trim l = []) : removeWs l = [] := by
  rw [← removeWs_trim, h]; rfl

theorem dropWhile_dropWhile_self {α : Type} (p : α → Bool) (l : List α) :
    (l.dropWhile p).dropWhile p = l.dropWhile p := by
  induction l with
  | nil => rfl
  | cons c cs ih =>
    by_cases hc : p c
    · simp [List.dropWhile_cons, hc, ih]
    · simp [List.dropWhile_cons, hc]

theorem trimL_idem (l : List Char) : trimL (trimL l) = trimL l :=
  dropWhile_dropWhile_self isWs l

theorem trimR_idem (l : List Char) : trimR (trimR l) = trimR l := by
  simp [trimR, List.reverse_reverse, dropWhile_dropWhile_self]

theorem trimR_append_ws (l : List Char) :
    ∃ s, trimR l ++ s = l ∧ ∀ c ∈ s, isWs c = true := by
  refine ⟨(l.reverse.takeWhile isWs).reverse, ?_, ?_⟩
  · rw [trimR, ← List.reverse_append, List.takeWhile_append_dropWhile, List.reverse_reverse]
  · intro c hc
    exact List.mem_takeWhile_imp (List.mem_reverse.mp hc)

theorem trimL_trimR_of_trimL_eq {l : List Char} (h : trimL l = l) :
    trimL (trimR l) = trimR l := by
  obtain ⟨s, hs, _⟩ := trimR_append_ws l
  cases htr : trimR l with
  | nil => rfl
  | cons c t =>
    have hl : l = c :: (t ++ s) := by rw [← hs, htr]; simp
    have hc : isWs c = false := by
      by_contra hcontra
      have hcw : isWs c = true := by
        cases hx : isWs c
        · exact absurd hx hcontra
        · rfl
      have hdrop : trimL l = (t ++ s).dropWhile isWs := by
        rw [hl, trimL, List.dropWhile_cons, hcw]
        simp [trimL]
      have hlen : l.length ≤ (t ++ s).length := by
        rw [← h, hdrop]
        exact (List.dropWhile_sublist isWs).length_le
      rw [hl] at hlen
      simp at hlen
    rw [trimL, List.dropWhile_cons, hc]
    simp

theorem trim_trim (l : List Char) : trim (trim l) = trim l := by
  rw [trim, trim, trimL_trimR_of_trimL_eq (trimL_idem l), trimR_idem]

theorem chunkLoop_removeWs (maxBytes : Nat) (ss : List (List Char)) :
    ∀ cur : List Char,
      removeWs (chunkLoop maxBytes cur ss).flatten = removeWs (cur ++ ss.flatten) := by
  induction ss with
  | nil =>
    intro cur
    by_cases h : trim cur = []
    · simp only [chunkLoop, if_pos h, List.flatten_nil, List.append_nil]
      rw [removeWs_eq_nil_of_trim h]
      rfl
    · simp [chunkLoop, h, removeWs_trim]
  | cons s rest ih =>
    intro cur
    by_cases hover : maxBytes < utf8Len (cur ++ s)
    · by_cases hcur : cur = []
      · subst hcur
        have hover' : maxBytes < utf8Len s := by simpa using hover
        simp [chunkLoop, hover', removeWs_append, removeWs_trim, ih []]
      · simp [chunkLoop, hover, hcur, removeWs_append, removeWs_trim, ih s]
    · simp only [chunkLoop, if_neg hover]
      rw [ih (cur ++ s)]
      simp [removeWs_append]

theorem goUnit_decomp (l : List Char) :
    ∀ (b : Bool) (acc : List Char), (b = false → ∀ c ∈ acc, isTerm c = false) →
      ∃ tail, acc ++ l = (goUnit b acc l).flatten ++ tail ∧ ∀ c ∈ tail, isTerm c = false := by
  induction l with
  | nil =>
    intro b acc hacc
    cases b with
    | false => exact ⟨acc, by simp [goUnit], hacc rfl⟩
    | true => exact ⟨[], by simp [goUnit], by simp⟩
  | cons c cs ih =>
    intro b acc hacc
    cases b with
    | true =>
      by_cases hc : isTerm c
      · obtain ⟨tail, htail, hws⟩ := ih true (acc ++ [c]) (by simp)
        exact ⟨tail, by simpa [goUnit, hc] using htail, hws⟩
      · obtain ⟨tail, htail, hws⟩ := ih false [c]
          (by intro _ x hx; simp at hx; subst hx; simpa using hc)
        refine ⟨tail, ?_, hws⟩
        have h2 : c :: cs = (goUnit false [c] cs).flatten ++ tail := by simpa using htail
        calc acc ++ (c :: cs) = acc ++ ((goUnit false [c] cs).flatten ++ tail) := by rw [← h2]
          _ = (goUnit true acc (c :: cs)).flatten ++ tail := by simp [goUnit, hc]
    | false =>
      by_cases hc : isTerm c
      · obtain ⟨tail, htail, hws⟩ := ih true (acc ++ [c]) (by simp)
        exact ⟨tail, by simpa [goUnit, hc] using htail, hws⟩
      · obtain ⟨tail, htail, hws⟩ := ih false (acc ++ [c])
          (by
            intro _ x hx
            simp at hx
            rcases hx with hx | hx
            · exact hacc rfl x hx
            · subst hx; simpa using hc)
        exact ⟨tail, by simpa [goUnit, hc] using htail, hws⟩

theorem goStart_decomp (l : List Char) :
    ∃ lead tail, l = lead ++ (goStart l).flatten ++ tail
      ∧ (∀ c ∈ lead, isTerm c = true) ∧ (∀ c ∈ tail, isTerm c = false) := by
  induction l with
  | nil => exact ⟨[], [], by simp [goStart], by simp, by simp⟩
  | cons c cs ih =>
    by_cases hc : isTerm c
    · obtain ⟨lead, tail, heq, hlead, htail⟩ := ih
      refine ⟨c :: lead, tail, ?_, ?_, htail⟩
      · simpa [goStart, hc] using heq
      · intro x hx
        rcases List.mem_cons.mp hx with hx | hx
        · subst hx; exact hc
        · exact hlead x hx
    · obtain ⟨tail, htail, hws⟩ := goUnit_decomp cs false [c]
        (by intro _ x hx; simp at hx; subst hx; simpa using hc)
      refine ⟨[], tail, ?_, by simp, hws⟩
      simp [goStart, hc]
      simpa using htail

theorem sentenceUnits_decomp (s : List Char) :
    ∃ lead tail, s = lead ++ (sentenceUnits s).flatten ++ tail
      ∧ (∀ c ∈ lead, isTerm c = true) ∧ (∀ c ∈ tail, isTerm c = false) := by
  by_cases h : splitSentences s = []
  · exact ⟨[], [], by simp [sentenceUnits, h], by simp, by simp⟩
  · simpa [sentenceUnits, h] using goStart_decomp s

theorem chunkLoop_ceiling (maxBytes : Nat) (units : List (List Char)) (ss : List (List Char)) :
    (∀ s ∈ ss, s ∈ units) →
    ∀ cur : List Char, (utf8Len cur ≤ maxBytes ∨ cur ∈ units) →
    ∀ c ∈ chunkLoop maxBytes cur ss,
      utf8Len c ≤ maxBytes ∨ ∃ u ∈ units, c = trim u ∧ maxBytes < utf8Len u := by
  induction ss with
  | nil =>
    intro _ cur hcur c hc
    by_cases h : trim cur = []
    · simp [chunkLoop, h] at hc
    · simp [chunkLoop, h] at hc
      subst hc
      rcases hcur with hcur | hcur
      · exact Or.inl ((utf8Len_trim_le cur).trans hcur)
      · by_cases hlen : utf8Len cur ≤ maxBytes
        · exact Or.inl ((utf8Len_trim_le cur).trans hlen)
        · exact Or.inr ⟨cur, hcur, rfl, by omega⟩
  | cons s rest ih =>
    intro hss cur hcur c hc
    have hsu : s ∈ units := hss s (by simp)
    have hrest : ∀ x ∈ rest, x ∈ units := fun x hx => hss x (by simp [hx])
    by_cases hover : maxBytes < utf8Len (cur ++ s)
    · by_cases hcurnil : cur = []
      · subst hcurnil
        have hover' : maxBytes < utf8Len s := by simpa using hover
        simp [chunkLoop, hover'] at hc
        rcases hc with hc | hc
        · subst hc
          exact Or.inr ⟨s, hsu, rfl, hover'⟩
        · exact ih hrest [] (Or.inl (by simp [utf8Len])) c hc
      · simp [chunkLoop, hover, hcurnil] at hc
        rcases hc with hc | hc
        · subst hc
          rcases hcur with hcur | hcur
          · exact Or.inl ((utf8Len_trim_le cur).trans hcur)
          · by_cases hlen : utf8Len cur ≤ maxBytes
            · exact Or.inl ((utf8Len_trim_le cur).trans hlen)
            · exact Or.inr ⟨cur, hcur, rfl, by omega⟩
        · exact ih hrest s (Or.inr hsu) c hc
    · simp [chunkLoop, hover] at hc
      exact ih hrest (cur ++ s) (Or.inl (by omega)) c hc

set_option maxHeartbeats 2000000 in
theorem stripTag_shape (l : List Char) (sp : Speaker) (rest : List Char)
    (h : stripTag l = some (sp, rest)) : l = tagChars sp ++ rest := by
  rw [stripTag.eq_def] at h
  split at h
  · rename_i heq
    injection h with h'
    injection h' with h1 h2
    subst h1; subst h2
    simp [tagChars]
  · rename_i heq
    injection h with h'
    injection h' with h1 h2
    subst h1; subst h2
    simp [tagChars]
  · exact absurd h (by simp)

theorem stripTag_tagChars (sp : Speaker) (rest : List Char) :
    stripTag (tagChars sp ++ rest) = some (sp, rest) := by
  cases sp <;> rfl

set_option maxHeartbeats 2000000 in
theorem parseAux_cons (sp : Speaker) (acc : List Char) (c : Char) (cs : List Char)
    (h : stripTag (c :: cs) = none) :
    parseAux sp acc (c :: cs) = parseAux sp (acc ++ [c]) cs := by
  rw [parseAux.eq_def]
  split
  · rename_i heq; rw [heq] at h; simp [stripTag] at h
  · rename_i heq; rw [heq] at h; simp [stripTag] at h
  · rename_i x rest heq; cases heq; rfl
  · rename_i heq; cases heq

theorem parseAux_tag (sp sp2 : Speaker) (acc l rest : List Char)
    (h : stripTag l = some (sp2, rest)) :
    parseAux sp acc l = emitSeg sp acc ++ parseAux sp2 [] rest := by
  have hl : l = tagChars sp2 ++ rest := stripTag_shape l sp2 rest h
  subst hl
  cases sp2 with
  | HOST => rfl
  | COHOST => rfl

set_option maxHeartbeats 2000000 in
theorem parsePre_cons (c : Char) (cs : List Char) (h : stripTag (c :: cs) = none) :
    parsePre (c :: cs) = parsePre cs := by
  rw [parsePre.eq_def]
  split
  · rename_i heq; rw [heq] at h; simp [stripTag] at h
  · rename_i heq; rw [heq] at h; simp [stripTag] at h
  · rename_i x rest heq; cases heq; rfl
  · rename_i heq; cases heq

theorem parsePre_tag (l rest : List Char) (sp : Speaker)
    (h : stripTag l = some (sp, rest)) :
    parsePre l = parseAux sp [] rest := by
  have hl : l = tagChars sp ++ rest := stripTag_shape l sp rest h
  subst hl
  cases sp with
  | HOST => rfl
  | COHOST => rfl

theorem emitSeg_sound (sp : Speaker) (acc : List Char) (seg : Segment)
    (h : seg ∈ emitSeg sp acc) : seg.text ≠ [] ∧ trim seg.text = seg.text := by
  unfold emitSeg at h
  by_cases ht : trim acc = []
  · simp [ht] at h
  · simp [ht] at h
    subst h
    exact ⟨ht, trim_trim acc⟩

theorem tagChars_ne_nil (sp : Speaker) : tagChars sp ≠ [] := by
  cases sp <;> simp [tagChars]

theorem parseAux_sound (n : Nat) :
    ∀ l : List Char, l.length ≤ n → ∀ (sp : Speaker) (acc : List Char) (seg : Segment),
      seg ∈ parseAux sp acc l → seg.text ≠ [] ∧ trim seg.text = seg.text := by
  induction n with
  | zero =>
    intro l hl sp acc seg hseg
    have hnil : l = [] := List.eq_nil_of_length_eq_zero (by omega)
    subst hnil
    exact emitSeg_sound sp acc seg hseg
  | succ n ih =>
    intro l hl sp acc seg hseg
    cases hstrip : stripTag l with
    | some p =>
      obtain ⟨sp2, rest⟩ := p
      have hl2 := stripTag_shape l sp2 rest hstrip
      rw [parseAux_tag sp sp2 acc l rest hstrip] at hseg
      rcases List.mem_append.mp hseg with hseg | hseg
      · exact emitSeg_sound sp acc seg hseg
      · refine ih rest ?_ sp2 [] seg hseg
        have hlen : l.length = (tagChars sp2).length + rest.length := by
          rw [hl2]; simp
        have hpos : 0 < (tagChars sp2).length :=
          List.length_pos.mpr (tagChars_ne_nil sp2)
        omega
    | none =>
      cases l with
      | nil => exact emitSeg_sound sp acc seg hseg
      | cons c cs =>
        rw [parseAux_cons sp acc c cs hstrip] at hseg
        refine ih cs ?_ sp (acc ++ [c]) seg hseg
        simp at hl
        omega

theorem parsePre_sound (n : Nat) :
    ∀ l : List Char, l.length ≤ n → ∀ seg : Segment,
      seg ∈ parsePre l → seg.text ≠ [] ∧ trim seg.text = seg.text := by
  induction n with
  | zero =>
    intro l hl seg hseg
    have hnil : l = [] := List.eq_nil_of_length_eq_zero (by omega)
    subst hnil
    simp [parsePre] at hseg
  | succ n ih =>
    intro l hl seg hseg
    cases hstrip : stripTag l with
    | some p =>
      obtain ⟨sp, rest⟩ := p
      have hl2 := stripTag_shape l sp rest hstrip
      rw [parsePre_tag l rest sp hstrip] at hseg
      have hlen : l.length = (tagChars sp).length + rest.length := by
        rw [hl2]; simp
      have hpos : 0 < (tagChars sp).length :=
        List.length_pos.mpr (tagChars_ne_nil sp)
      exact parseAux_sound rest.length rest (le_refl _) sp [] seg hseg
    | none =>
      cases l with
      | nil => simp [parsePre] at hseg
      | cons c cs =>
        rw [parsePre_cons c cs hstrip] at hseg
        refine ih cs ?_ seg hseg
        simp at hl
        omega

theorem runChunks_ok_of (ok : Nat → Bool) (sp : Speaker) :
    ∀ (cs : List (List Char)) (idx : Nat) (files : List ChunkFile)
      (calls : List (Speaker × List Char)),
      (∀ i, idx ≤ i → i < idx + cs.length → ok i = true) →
      ∃ nf, runChunks ok sp idx files calls cs =
          Except.ok (idx + cs.length, files ++ nf, calls ++ cs.map (fun c => (sp, c)))
        ∧ nf.map (fun f => (f.2.1, f.2.2)) = cs.map (fun c => (sp, c))
        ∧ nf.length = cs.length := by
  intro cs
  induction cs with
  | nil =>
    intro idx files calls _
    exact ⟨[], by simp [runChunks], by simp, by simp⟩
  | cons c rest ih =>
    intro idx files calls h
    have hok : ok idx = true := h idx (le_refl _) (by simp)
    obtain ⟨nf, heq, hmap, hlen⟩ := ih (idx + 1) (files ++ [(idx, sp, c)]) (calls ++ [(sp, c)])
      (fun i h1 h2 => h i (by omega) (by simp only [List.length_cons]; omega))
    refine ⟨(idx, sp, c) :: nf, ?_, ?_, ?_⟩
    · simp only [runChunks, hok, if_pos]
      rw [heq]
      simp only [List.append_assoc, List.singleton_append, List.map_cons, List.length_cons]
      have harith : idx + 1 + rest.length = idx + (rest.length + 1) := by omega
      rw [harith]
    · simp [hmap]
    · simp [hlen]

theorem runSegments_ok_of (ok : Nat → Bool) :
    ∀ (segs : List Segment) (idx : Nat) (files : List ChunkFile)
      (calls : List (Speaker × List Char)),
      (∀ i, idx ≤ i → i < idx + (segs.map (fun seg => (chunksForSegment seg).length)).sum →
        ok i = true) →
      ∃ nf, runSegments ok idx files calls segs =
          Except.ok (idx + (segs.map (fun seg => (chunksForSegment seg).length)).sum,
            files ++ nf,
            calls ++
              (segs.map (fun seg => (chunksForSegment seg).map (fun c => (seg.speaker, c)))).flatten)
        ∧ nf.map (fun f => (f.2.1, f.2.2)) =
            (segs.map (fun seg => (chunksForSegment seg).map (fun c => (seg.speaker, c)))).flatten
        ∧ nf.length = (segs.map (fun seg => (chunksForSegment seg).length)).sum := by
  intro segs
  induction segs with
  | nil =>
    intro idx files calls _
    exact ⟨[], by simp [runSegments], by simp, by simp⟩
  | cons seg rest ih =>
    intro idx files calls h
    obtain ⟨nf1, he1, hm1, hl1⟩ := runChunks_ok_of ok seg.speaker (chunksForSegment seg) idx
      files calls (fun i h1 h2 => h i h1 (by simp only [List.map_cons, List.sum_cons]; omega))
    obtain ⟨nf2, he2, hm2, hl2⟩ := ih (idx + (chunksForSegment seg).length) (files ++ nf1)
      (calls ++ (chunksForSegment seg).map (fun c => (seg.speaker, c)))
      (fun i h1 h2 => h i (by omega) (by simp only [List.map_cons, List.sum_cons]; omega))
    refine ⟨nf1 ++ nf2, ?_, ?_, ?_⟩
    · simp only [runSegments, he1, he2]
      simp only [List.map_cons, List.sum_cons, List.flatten_cons, List.append_assoc]
      rw [Nat.add_assoc]
    · simp [hm1, hm2]
    · simp [hl1, hl2]

theorem convert_allOk_spec (script : List Char) :
    convertToAudio (fun _ => true) script =
      Except.ok ⟨globalChunkOrder script, utf8Len script, globalChunkOrder script, []⟩ := by
  obtain ⟨nf, he, hm, hl⟩ := runSegments_ok_of (fun _ => true) (parseScriptBySpeaker script) 0 [] []
    (fun i _ _ => rfl)
  simp only [convertToAudio, he]
  split <;> simp [globalChunkOrder, hm]

theorem runChunks_fail (j : Nat) (sp : Speaker) :
    ∀ (cs : List (List Char)) (idx : Nat) (files : List ChunkFile)
      (calls : List (Speaker × List Char)),
      files.length = idx → idx ≤ j → j < idx + cs.length →
      ∃ fs, runChunks (fun i => decide (i < j)) sp idx files calls cs = Except.error fs
        ∧ fs.length = j := by
  intro cs
  induction cs with
  | nil =>
    intro idx files calls h1 h2 h3
    simp only [List.length_nil] at h3
    omega
  | cons c rest ih =>
    intro idx files calls hflen hle hlt
    by_cases hidx : idx < j
    · obtain ⟨fs, he, hl⟩ := ih (idx + 1) (files ++ [(idx, sp, c)]) (calls ++ [(sp, c)])
        (by simp [hflen]) (by omega) (by simp only [List.length_cons] at hlt ⊢; omega)
      refine ⟨fs, ?_, hl⟩
      simpa [runChunks, hidx] using he
    · have hj : idx = j := by omega
      subst hj
      refine ⟨files, ?_, by omega⟩
      simp [runChunks]

theorem runSegments_fail (j : Nat) :
    ∀ (segs : List Segment) (idx : Nat) (files : List ChunkFile)
      (calls : List (Speaker × List Char)),
      files.length = idx → idx ≤ j →
      j < idx + (segs.map (fun seg => (chunksForSegment seg).length)).sum →
      ∃ fs, runSegments (fun i => decide (i < j)) idx files calls segs = Except.error fs
        ∧ fs.length = j := by
  intro segs
  induction segs with
  | nil =>
    intro idx files calls h1 h2 h3
    simp only [List.map_nil, List.sum_nil] at h3
    omega
  | cons seg rest ih =>
    intro idx files calls hflen hle hlt
    by_cases hseg : j < idx + (chunksForSegment seg).length
    · obtain ⟨fs, he, hl⟩ := runChunks_fail j seg.speaker (chunksForSegment seg) idx files calls
        hflen hle hseg
      refine ⟨fs, ?_, hl⟩
      simp only [runSegments, he]
    · push_neg at hseg
      obtain ⟨nf1, he1, hm1, hl1⟩ := runChunks_ok_of (fun i => decide (i < j)) seg.speaker
        (chunksForSegment seg) idx files calls (fun i h1 h2 => by simp only [decide_eq_true_eq]; omega)
      obtain ⟨fs, he2, hl⟩ := ih (idx + (chunksForSegment seg).length) (files ++ nf1)
        (calls ++ (chunksForSegment seg).map (fun c => (seg.speaker, c)))
        (by simp [hflen, hl1]) (by omega)
        (by simp only [List.map_cons, List.sum_cons] at hlt; omega)
      refine ⟨fs, ?_, hl⟩
      simp only [runSegments, he1, he2]

theorem globalChunkOrder_length (script : List Char) :
    (globalChunkOrder script).length =
      ((parseScriptBySpeaker script).map (fun seg => (chunksForSegment seg).length)).sum := by
  simp [globalChunkOrder, List.length_flatten, List.map_map, Function.comp_def]

theorem parsePre_eq_nil (l : List Char)
    (h : ∀ n, n ≤ l.length → stripTag (l.drop n) = none) : parsePre l = [] := by
  induction l with
  | nil => rfl
  | cons c cs ih =>
    rw [parsePre_cons c cs (by simpa using h 0 (by omega))]
    exact ih (fun n hn => by
      simpa [List.drop_succ_cons] using h (n + 1) (by simp only [List.length_cons]; omega))

/-- Claim C1 fails on the code: for the turn text "Hi. Bye" the chunker's
sentence regex matches only "Hi."; the trailing fragment "Bye" carries no
terminal punctuation, is matched by no sentence unit and is dropped, so
rejoining the chunks with single spaces does not reproduce the trimmed
input. -/
theorem c1_roundTrip_cex :
    chunkScript ("Hi. Bye".toList) 4500 = ["Hi.".toList]
    ∧ joinSpaces (chunkScript ("Hi. Bye".toList) 4500) ≠ trim ("Hi. Bye".toList) := by
  constructor
  · decide
  · decide

/-- Claim C1 (amended): chunking loses no non-whitespace character of the
matched sentence units and keeps them in order — with all whitespace erased,
the concatenation of the chunks equals the concatenation of the sentence
units.  The units cover the whole turn text except a leading run of
terminator characters and a trailing fragment without terminal punctuation,
both dropped by the sentence regex; whitespace at chunk edges is trimmed,
so the exact single-space round trip of the original claim fails. -/
theorem c1_chunk_content_preserved (script : List Char) (maxBytes : Nat) :
    removeWs (chunkScript script maxBytes).flatten = removeWs (sentenceUnits script).flatten
    ∧ ∃ lead tail, script = lead ++ (sentenceUnits script).flatten ++ tail
        ∧ (∀ c ∈ lead, isTerm c = true) ∧ (∀ c ∈ tail, isTerm c = false) := by
  constructor
  · have h := chunkLoop_removeWs maxBytes (sentenceUnits script) []
    simpa [chunkScript] using h
  · exact sentenceUnits_decomp script

/-- Claim C2: every chunk's UTF-8 byte length is at most the ceiling, except
that a chunk which is the (trimmed) form of a single sentence unit whose own
encoded length exceeds the ceiling is emitted alone, oversized. -/
theorem c2_byte_ceiling (script : List Char) (maxBytes : Nat) (c : List Char)
    (hc : c ∈ chunkScript script maxBytes) :
    utf8Len c ≤ maxBytes ∨ ∃ u ∈ sentenceUnits script, c = trim u ∧ maxBytes < utf8Len u := by
  refine chunkLoop_ceiling maxBytes (sentenceUnits script) (sentenceUnits script)
    (fun s hs => hs) [] (Or.inl ?_) c hc
  simp [utf8Len]

/-- Witness for C2 at a concrete chunk of a concrete script. -/
theorem c2_byte_ceiling_witness :
    utf8Len ("Hello there.".toList) ≤ 4500
    ∨ ∃ u ∈ sentenceUnits ("Hello there.".toList),
        "Hello there.".toList = trim u ∧ 4500 < utf8Len u :=
  c2_byte_ceiling ("Hello there.".toList) 4500 ("Hello there.".toList) (by decide)

/-- Claim C3: with every synthesis call succeeding, the synthesis calls and
the fragments concatenated into the artifact both follow exactly the global
chunk order: parsed turn order, then within-turn chunk order. -/
theorem c3_order_preserved (script : List Char) :
    ∃ r, convertToAudio (fun _ => true) script = Except.ok r
      ∧ r.calls = globalChunkOrder script
      ∧ r.artifact = globalChunkOrder script :=
  ⟨⟨globalChunkOrder script, utf8Len script, globalChunkOrder script, []⟩,
    convert_allOk_spec script, rfl, rfl⟩

/-- Claim C4 fails on the code: the non-empty marker-free transcript
"Hello world" parses to the empty turn list — the same value the empty
transcript parses to, so the two cases are not distinguished — and the
conversion performs zero synthesis calls and assembles an empty artifact,
instead of synthesizing a single synthetic turn under a default speaker. -/
theorem c4_no_fallback_cex :
    parseScriptBySpeaker ("Hello world".toList) = []
    ∧ parseScriptBySpeaker [] = []
    ∧ convertToAudio (fun _ => true) ("Hello world".toList) =
        Except.ok ⟨[], 11, [], []⟩ :=
  ⟨by decide, rfl, rfl⟩

/-- Claim C4 (amended): a transcript containing no recognised speaker marker
parses to zero turns — indistinguishable from an empty transcript — and the
conversion path performs zero synthesis calls and assembles an empty
artifact; there is no single-voice fallback and no default speaker. -/
theorem c4_no_marker_no_fallback (script : List Char)
    (h : ∀ n, n ≤ script.length → stripTag (script.drop n) = none) :
    parseScriptBySpeaker script = []
    ∧ convertToAudio (fun _ => true) script = Except.ok ⟨[], utf8Len script, [], []⟩ := by
  have hp : parsePre script = [] := parsePre_eq_nil script h
  refine ⟨hp, ?_⟩
  have hgco : globalChunkOrder script = [] := by
    simp [globalChunkOrder, parseScriptBySpeaker, hp]
  have hconv := convert_allOk_spec script
  rw [hgco] at hconv
  exact hconv

/-- Witness for the amended C4 on a concrete marker-free transcript. -/
theorem c4_no_marker_no_fallback_witness :
    parseScriptBySpeaker ("just plain text".toList) = []
    ∧ convertToAudio (fun _ => true) ("just plain text".toList) =
        Except.ok ⟨[], utf8Len ("just plain text".toList), [], []⟩ :=
  c4_no_marker_no_fallback ("just plain text".toList) (by decide)

/-- Claim C5 fails on the code: for "[HOST] Hi" the returned character count
is the UTF-8 byte length of the whole raw script (9, tags and whitespace
included), while the chunks actually sent to synthesis total 2 bytes. -/
theorem c5_characters_cex :
    convertToAudio (fun _ => true) ("[HOST] Hi".toList) =
      Except.ok ⟨[(Speaker.HOST, "Hi".toList)], 9, [(Speaker.HOST, "Hi".toList)], []⟩
    ∧ ((globalChunkOrder ("[HOST] Hi".toList)).map (fun pc => utf8Len pc.2)).sum = 2
    ∧ (9 : Nat) ≠ 2 :=
  ⟨rfl, by decide, by decide⟩

/-- Claim C5 (amended): the character count returned by a successful
conversion is the UTF-8 byte length of the entire raw script — speaker tags,
whitespace and any discarded preamble included — not the accumulated byte
length of the chunks sent to synthesis. -/
theorem c5_characters_whole_script (script : List Char) :
    ∃ r, convertToAudio (fun _ => true) script = Except.ok r
      ∧ r.characters = utf8Len script :=
  ⟨⟨globalChunkOrder script, utf8Len script, globalChunkOrder script, []⟩,
    convert_allOk_spec script, rfl⟩

/-- Claim C6 fails on the code: the retry loop classifies no errors — a stub
whose first attempt fails with a non-transient error code (401,
authentication) is retried, and the run succeeds on the second attempt
instead of the first attempt's error propagating immediately. -/
theorem c6_nontransient_retried_cex :
    authFailStub 1 = Except.error 401
    ∧ synthesizeChunkWithRetry authFailStub 2 = Except.ok 7
    ∧ (Except.ok 7 : Except Nat Nat) ≠ Except.error 401 :=
  ⟨rfl, rfl, fun h => nomatch h⟩

/-- Claim C6 (amended): `synthesizeChunkWithRetry` retries every failure
alike, with no transience classification — whenever the first attempt fails
with any error and the second succeeds, the driver returns the second
attempt's success for any positive retry bound, rather than propagating the
first attempt's error. -/
theorem c6_all_failures_retried {ε α : Type} (stub : Nat → Except ε α)
    (maxRetries : Nat) (e : ε) (v : α)
    (h1 : stub 1 = Except.error e) (h2 : stub 2 = Except.ok v)
    (hmr : 1 ≤ maxRetries) :
    synthesizeChunkWithRetry stub maxRetries = Except.ok v := by
  obtain ⟨m, rfl⟩ : ∃ m, maxRetries = m + 1 := ⟨maxRetries - 1, by omega⟩
  show retryAux stub 1 (m + 1) = Except.ok v
  simp only [retryAux, h1]
  cases m with
  | zero => simpa [retryAux] using h2
  | succ k => simp [retryAux, h2]

/-- Witness for the amended C6 at the authentication-failure stub. -/
theorem c6_all_failures_retried_witness :
    synthesizeChunkWithRetry authFailStub 2 = Except.ok 7 :=
  c6_all_failures_retried authFailStub 2 401 7 rfl rfl (by decide)

/-- Claim C7: against a stub that fails exactly K times and then succeeds,
the driver with retry bound 2 returns the success when K ≤ 2 (at most three
total attempts) and propagates the third attempt's failure when K > 2. -/
theorem c7_retry_bound {ε α : Type} (stub : Nat → Except ε α) (K : Nat) (v : α) (e : Nat → ε)
    (hf : ∀ n, 1 ≤ n → n ≤ K → stub n = Except.error (e n))
    (hs : ∀ n, K < n → stub n = Except.ok v) :
    (K ≤ 2 → synthesizeChunkWithRetry stub 2 = Except.ok v)
    ∧ (2 < K → synthesizeChunkWithRetry stub 2 = Except.error (e 3)) := by
  constructor
  · intro hK
    interval_cases K
    · simp only [synthesizeChunkWithRetry, retryAux, hs 1 (by omega)]
    · simp only [synthesizeChunkWithRetry, retryAux, hf 1 (by omega) (by omega),
        hs 2 (by omega)]
    · simp only [synthesizeChunkWithRetry, retryAux, hf 1 (by omega) (by omega),
        hf 2 (by omega) (by omega), hs 3 (by omega)]
  · intro hK
    simp only [synthesizeChunkWithRetry, retryAux, hf 1 (by omega) (by omega),
      hf 2 (by omega) (by omega), hf 3 (by omega) (by omega)]

/-- Witness for C7 with K = 2: two transient failures, then success after
three total attempts. -/
theorem c7_retry_bound_witness :
    synthesizeChunkWithRetry failTwiceStub 2 = Except.ok 9 :=
  (c7_retry_bound failTwiceStub 2 9 (fun n => n)
    (fun n h1 h2 => by interval_cases n <;> rfl)
    (fun n h => by
      unfold failTwiceStub
      rw [if_neg (by omega)])).1 (by decide)

/-- Claim C8 fails on the code: a run of "[HOST] one. [COHOST] two." whose
second synthesis call fails exits through the rethrowing catch block with
the first chunk's temp file still on disk — temp files are not removed on
the failure exit path. -/
theorem c8_cleanup_cex :
    convertToAudio (fun i => decide (i < 1)) ("[HOST] one. [COHOST] two.".toList) =
      Except.error [(0, Speaker.HOST, "one.".toList)]
    ∧ ([(0, Speaker.HOST, "one.".toList)] : List ChunkFile) ≠ [] :=
  ⟨rfl, by decide⟩

/-- Claim C8 (amended): on a fully successful run every temp chunk file is
removed (unlinked after combination, or renamed away when it is the single
chunk), but a run failing at global chunk index j exits with the j temp
files written before the failing chunk still on disk — cleanup is not
guaranteed on the failure exit path. -/
theorem c8_cleanup (script : List Char) (j : Nat)
    (hj : j < (globalChunkOrder script).length) :
    (∃ r, convertToAudio (fun _ => true) script = Except.ok r ∧ r.tempLeft = [])
    ∧ (∃ fs, convertToAudio (fun i => decide (i < j)) script = Except.error fs
        ∧ fs.length = j) := by
  constructor
  · exact ⟨_, convert_allOk_spec script, rfl⟩
  · rw [globalChunkOrder_length] at hj
    obtain ⟨fs, he, hl⟩ := runSegments_fail j (parseScriptBySpeaker script) 0 [] [] rfl
      (by omega) (by omega)
    refine ⟨fs, ?_, hl⟩
    simp only [convertToAudio, he]

/-- Witness for the amended C8: failure at the second chunk (index 1) leaves
exactly one temp file. -/
theorem c8_cleanup_witness :
    (∃ r, convertToAudio (fun _ => true) ("[HOST] one. [COHOST] two.".toList) = Except.ok r
      ∧ r.tempLeft = [])
    ∧ (∃ fs, convertToAudio (fun i => decide (i < 1)) ("[HOST] one. [COHOST] two.".toList) =
        Except.error fs ∧ fs.length = 1) :=
  c8_cleanup ("[HOST] one. [COHOST] two.".toList) 1 (by decide)

/-- Claim C9: every turn the parser emits has non-empty text, and that text
is its own trim (so its trimmed text is non-empty) — a marker followed by
only whitespace, by another marker, or standing at end of input yields no
turn. -/
theorem c9_turns_nonempty (script : List Char) (seg : Segment)
    (h : seg ∈ parseScriptBySpeaker script) :
    seg.text ≠ [] ∧ trim seg.text = seg.text :=
  parsePre_sound script.length script (le_refl _) seg h

/-- Witness for C9 on a concrete transcript with an empty trailing turn. -/
theorem c9_turns_nonempty_witness :
    (⟨Speaker.HOST, "Hello.".toList⟩ : Segment).text ≠ []
    ∧ trim (Segment.text ⟨Speaker.HOST, "Hello.".toList⟩) =
        (⟨Speaker.HOST, "Hello.".toList⟩ : Segment).text :=
  c9_turns_nonempty ("x[HOST] Hello. [COHOST]   ".toList) ⟨Speaker.HOST, "Hello.".toList⟩
    (by decide)

/-- Claim C10: when the first recognised marker of the transcript follows a
preamble, the parse result is computed solely from the text after that
marker — the preamble contributes to no returned turn. -/
theorem c10_preamble_discarded (pre : List Char) (sp : Speaker) (rest : List Char)
    (h : ∀ n, n < pre.length → stripTag ((pre ++ tagChars sp ++ rest).drop n) = none) :
    parseScriptBySpeaker (pre ++ tagChars sp ++ rest) = parseAux sp [] rest := by
  induction pre with
  | nil =>
    show parsePre (tagChars sp ++ rest) = parseAux sp [] rest
    exact parsePre_tag _ _ _ (stripTag_tagChars sp rest)
  | cons c p ih =>
    have h0 := h 0 (by simp)
    show parsePre (c :: (p ++ tagChars sp ++ rest)) = parseAux sp [] rest
    rw [parsePre_cons c (p ++ tagChars sp ++ rest) (by simpa using h0)]
    exact ih (fun n hn => by
      simpa using h (n + 1) (by simp only [List.length_cons]; omega))

/-- Witness for C10 on a concrete preamble. -/
theorem c10_preamble_discarded_witness :
    parseScriptBySpeaker ("Intro: ".toList ++ tagChars Speaker.HOST ++ " hi".toList) =
      parseAux Speaker.HOST [] (" hi".toList) :=
  c10_preamble_discarded ("Intro: ".toList) Speaker.HOST (" hi".toList) (by decide)

end DailyPodcast
